import Mathlib

/-!
# Verification of the Preppin' Data tabular-pipeline semantics

A shallow embedding of the dataframe primitives the challenge scripts rely
on (conditional chains, joins, melt/pivot, diagonal concatenation, ranking,
rolling means) together with the repository's own helper functions
(`get_predicate_expr`, `if_else`, `clean_market_cap`, `parse_str_to_float`,
`categorize_trade`, the Scrabble word-probability view, ...), and proofs of
the spec's testable properties over that embedding.

Conventions: machine floats are modelled as `ℚ` (all values exercised here
are exactly representable); table cells are `Option Value` with `none` as
null; fallible code returns `Except String`.
-/

namespace PreppinData

/-- A scalar value of a dataframe cell: integers, floats (modelled
exactly as rationals), strings and booleans. -/
inductive Value where
  | int (i : ℤ)
  | num (q : ℚ)
  | str (s : String)
  | bool (b : Bool)
deriving DecidableEq

/-- The `true_val : Any` argument of `get_predicate_expr`: either a scalar
or a collection of scalars (the `in` operator calls `set(true_val)`). -/
inductive TrueVal where
  | scalar (v : Value)
  | coll (vs : List Value)
deriving DecidableEq

/-- A cell of a table column; `none` is the null value. -/
abbrev Cell : Type := Option Value

/-- A table row: an ordered association of column name to cell. -/
abbrev Row : Type := List (String × Cell)

/-- Read the cell of the named column of a row; a column that is absent
from the row reads as null (`none`). -/
def getCell : Row → String → Cell
  | [], _ => none
  | (c, v) :: r, n => if c = n then v else getCell r n

/-- Modelled from the spec: evaluation of a `when/then/.../otherwise`
conditional chain for a single row (the `pl.when(...).then(...)...`
cascade, which is not part of this repository's sources).  Predicates are
tested top-to-bottom; the first matching predicate yields its branch
value; if none match the result is the `otherwise` value, which is null
(`none`) when no `otherwise` branch was given. -/
def evalWhenChain {α : Type} : List (Bool × α) → Option α → Option α
  | [], oth => oth
  | (p, v) :: rest, oth => if p then some v else evalWhenChain rest oth

/-- The market-cap bucketing chain of `categorize_trade`
(y2023/challenge08.py): `when(mc < 1e8) Small / when(mc < 1e9) Medium /
when(mc < 1e11) Large / otherwise Huge`. -/
def marketCapCategory (mc : ℤ) : Option String :=
  evalWhenChain
    [(mc < 100000000, "Small"),
     (mc < 1000000000, "Medium"),
     (mc < 100000000000, "Large")]
    (some "Huge")

/-- The purchase-price bucketing chain of `categorize_trade`
(y2023/challenge08.py). -/
def purchasePriceCategory (pp : ℚ) : Option String :=
  evalWhenChain
    [(pp < 25000, "Small"),
     (pp < 50000, "Medium"),
     (pp < 75000, "Large")]
    (some "Very Large")

/-- Whether the first list of characters is a prefix of the second
(executable model of `str.starts_with`). -/
def isPrefixOfChars : List Char → List Char → Bool
  | [], _ => true
  | _ :: _, [] => false
  | a :: as, b :: bs => a == b && isPrefixOfChars as bs

/-- `s.startsWith pre`, computed on the underlying character lists. -/
def strStartsWith (s pre : String) : Bool := isPrefixOfChars pre.data s.data

/-- The transaction-sign chain of `view_transaction_flow`
(y2023/challenge09.py): `when(starts_with "destination") 1 /
when(starts_with "source") -1 / otherwise(None)`. -/
def signTransaction (v : String) : Option ℤ :=
  evalWhenChain
    [(strStartsWith v "destination", (1 : ℤ)),
     (strStartsWith v "source", (-1 : ℤ))]
    none

/-- C1: in a `when/then/.../otherwise` chain, predicates are tested
top-to-bottom and the first matching predicate determines the result:
after any prefix of failing predicates, a succeeding predicate returns its
branch value; `when(True).then(1).when(True).then(2).otherwise(3)` yields
`1` for every row; if no predicate matches and no `otherwise` branch was
given, the result is null; the market-cap chain of `categorize_trade`
returns `Medium` for a value that also satisfies the later `Large`
predicate. -/
theorem whenChain_first_match_wins :
    (∀ (α : Type) (pre : List (Bool × α)) (v : α) (rest : List (Bool × α))
        (oth : Option α), (∀ b ∈ pre, b.1 = false) →
        evalWhenChain (pre ++ (true, v) :: rest) oth = some v) ∧
    evalWhenChain [(true, (1 : ℤ)), (true, 2)] (some 3) = some 1 ∧
    (∀ (α : Type) (ps : List (Bool × α)), (∀ b ∈ ps, b.1 = false) →
        evalWhenChain ps none = none) ∧
    marketCapCategory 500000000 = some "Medium" ∧
    signTransaction "fee rebate" = none := by
  refine ⟨?_, rfl, ?_, by decide, by decide⟩
  · intro α pre v rest oth h
    induction pre with
    | nil => simp [evalWhenChain]
    | cons b pre ih =>
      have hb : b.1 = false := h b (List.mem_cons_self b pre)
      have : evalWhenChain (pre ++ (true, v) :: rest) oth = some v :=
        ih (fun x hx => h x (List.mem_cons_of_mem b hx))
      cases b with
      | mk p val =>
        simp only [List.cons_append, evalWhenChain]
        simp only at hb
        rw [hb]
        simpa using this
  · intro α ps h
    induction ps with
    | nil => rfl
    | cons b ps ih =>
      have hb : b.1 = false := h b (List.mem_cons_self b ps)
      cases b with
      | mk p val =>
        simp only [evalWhenChain]
        simp only at hb
        rw [hb]
        simpa using ih (fun x hx => h x (List.mem_cons_of_mem _ hx))

/-- Witness for C1: instantiates the first-match-wins statement on a
concrete chain with a failing first predicate. -/
theorem whenChain_first_match_wins_witness :
    evalWhenChain [(false, (7 : ℤ)), (true, 9), (true, 11)] (some 13) = some 9 :=
  whenChain_first_match_wins.1 ℤ [(false, 7)] 9 [(true, 11)] (some 13)
    (by decide)

/-- Numeric view of a value: integer and float cells compare on the
number line (modelled exactly in `ℚ`); other values are not numeric. -/
def valueToQ : Value → Option ℚ
  | .int i => some (i : ℚ)
  | .num q => some q
  | _ => none

/-- Lexicographic order on character lists (model of Python string
comparison). -/
def charsLt : List Char → List Char → Bool
  | [], [] => false
  | [], _ :: _ => true
  | _ :: _, [] => false
  | a :: as, b :: bs => a < b || (a == b && charsLt as bs)

/-- Strict comparison of two scalar values: numeric values compare
numerically, strings lexicographically, booleans with `false < true`;
comparisons across incompatible types are `false`. -/
def valueLt (a b : Value) : Bool :=
  match valueToQ a, valueToQ b with
  | some x, some y => decide (x < y)
  | _, _ =>
    match a, b with
    | .str s, .str t => charsLt s.data t.data
    | .bool x, .bool y => !x && y
    | _, _ => false

/-- Non-strict comparison of two scalar values. -/
def valueLe (a b : Value) : Bool := valueLt a b || a == b

/-- Lift a scalar comparison to a predicate on the named column of a row:
the comparison of the column's cell against a scalar `true_val`.  A null
cell or a non-scalar `true_val` yields `false` (a null comparison
propagates null, which a filter drops). -/
def scalarTest (p : Value → Value → Bool) (colName : String) (t : TrueVal)
    (r : Row) : Bool :=
  match getCell r colName, t with
  | some v, .scalar s => p v s
  | _, _ => false

/-- `get_predicate_expr` (preppin_data/common_expressions.py): returns the
comparison predicate on the named column selected by the `operator`
string; `"in"` tests membership of the column value in `set(true_val)`
(an error if `true_val` is not a collection); every other operator string
raises `NotImplementedError`. -/
def getPredicateExpr (colName operator : String) (trueVal : TrueVal) :
    Except String (Row → Bool) :=
  match operator with
  | "==" => .ok (scalarTest (fun v s => v == s) colName trueVal)
  | "<" => .ok (scalarTest (fun v s => valueLt v s) colName trueVal)
  | "<=" => .ok (scalarTest (fun v s => valueLe v s) colName trueVal)
  | ">=" => .ok (scalarTest (fun v s => valueLe s v) colName trueVal)
  | ">" => .ok (scalarTest (fun v s => valueLt s v) colName trueVal)
  | "in" =>
    match trueVal with
    | .coll vs =>
      .ok (fun r =>
        match getCell r colName with
        | some v => vs.contains v
        | none => false)
    | .scalar _ => .error "TypeError: true_val is not iterable"
  | _ =>
    .error ("NotImplementedError: Operator " ++ operator ++
      " is not yet implemented.")

/-- `if_else` (preppin_data/common_expressions.py): builds the predicate
with `get_predicate_expr` and wraps it in the one-branch conditional chain
`when(pred).then(true_label).otherwise(false_label)`. -/
def ifElse (colName : String) (trueVal : TrueVal)
    (trueLabel falseLabel : Value) (operator : String) :
    Except String (Row → Option Value) :=
  match getPredicateExpr colName operator trueVal with
  | .error e => .error e
  | .ok pred =>
    .ok (fun r => evalWhenChain [(pred r, trueLabel)] (some falseLabel))

/-- C10: `get_predicate_expr` raises `NotImplementedError` for every
operator string other than `==`, `<`, `<=`, `>=`, `>`, `in` (and hence
`if_else` fails for such operators); each supported operator returns the
corresponding comparison predicate on the named column, with `in` testing
membership in the set of the given values. -/
theorem getPredicateExpr_spec :
    (∀ (c op : String) (t : TrueVal),
        op ∉ (["==", "<", "<=", ">=", ">", "in"] : List String) →
        getPredicateExpr c op t =
          .error ("NotImplementedError: Operator " ++ op ++
            " is not yet implemented.")) ∧
    (∀ (c op : String) (t : TrueVal) (tl fl : Value),
        op ∉ (["==", "<", "<=", ">=", ">", "in"] : List String) →
        ifElse c t tl fl op =
          .error ("NotImplementedError: Operator " ++ op ++
            " is not yet implemented.")) ∧
    (∀ (c : String) (s : Value) (r : Row) (v : Value), getCell r c = some v →
        (getPredicateExpr c "==" (.scalar s)).map (fun p => p r)
            = .ok (v == s) ∧
        (getPredicateExpr c "<" (.scalar s)).map (fun p => p r)
            = .ok (valueLt v s) ∧
        (getPredicateExpr c "<=" (.scalar s)).map (fun p => p r)
            = .ok (valueLe v s) ∧
        (getPredicateExpr c ">=" (.scalar s)).map (fun p => p r)
            = .ok (valueLe s v) ∧
        (getPredicateExpr c ">" (.scalar s)).map (fun p => p r)
            = .ok (valueLt s v)) ∧
    (∀ (c : String) (vs : List Value) (r : Row) (v : Value),
        getCell r c = some v →
        (getPredicateExpr c "in" (.coll vs)).map (fun p => p r)
            = .ok (vs.contains v)) := by
  have hstep : ∀ (c op : String) (t : TrueVal),
      op ∉ (["==", "<", "<=", ">=", ">", "in"] : List String) →
      getPredicateExpr c op t =
        .error ("NotImplementedError: Operator " ++ op ++
          " is not yet implemented.") := by
    intro c op t h
    simp only [List.mem_cons, List.not_mem_nil, or_false, not_or] at h
    obtain ⟨h1, h2, h3, h4, h5, h6⟩ := h
    simp [getPredicateExpr, h1, h2, h3, h4, h5, h6]
  refine ⟨hstep, ?_, ?_, ?_⟩
  · intro c op t tl fl h
    rw [ifElse, hstep c op t h]
  · intro c s r v hv
    refine ⟨?_, ?_, ?_, ?_, ?_⟩ <;>
      simp [getPredicateExpr, Except.map, scalarTest, hv]
  · intro c vs r v hv
    simp [getPredicateExpr, Except.map, hv]

/-- Witness for C10: the unsupported operator `!=` errors (both from
`get_predicate_expr` and through `if_else`), and `<` / `in` evaluate to
the expected comparisons on a concrete row. -/
theorem getPredicateExpr_spec_witness :
    getPredicateExpr "A" "!=" (.scalar (.int 3)) =
      .error "NotImplementedError: Operator != is not yet implemented." ∧
    ifElse "A" (.scalar (.int 3)) (.str "y") (.str "n") "!=" =
      .error "NotImplementedError: Operator != is not yet implemented." ∧
    (getPredicateExpr "A" "<" (.scalar (.int 5))).map
      (fun p => p [("A", some (.int 3))]) = .ok (valueLt (.int 3) (.int 5)) ∧
    (getPredicateExpr "A" "in" (.coll [.int 2, .int 3])).map
      (fun p => p [("A", some (.int 3))]) =
      .ok (([Value.int 2, Value.int 3]).contains (.int 3)) :=
  ⟨getPredicateExpr_spec.1 "A" "!=" (.scalar (.int 3)) (by decide),
   getPredicateExpr_spec.2.1 "A" "!=" (.scalar (.int 3)) (.str "y") (.str "n")
     (by decide),
   (getPredicateExpr_spec.2.2.1 "A" (.int 5) [("A", some (.int 3))] (.int 3)
     (by decide)).2.1,
   getPredicateExpr_spec.2.2.2 "A" [.int 2, .int 3] [("A", some (.int 3))]
     (.int 3) (by decide)⟩

/-- Modelled from the spec: the match of the regex alternative `\d+.\d+`
at the start of `cs` under the leftmost-first, greedy-with-backtracking
semantics of the regex engine (an external collaborator of this
repository).  `\d+` first consumes the maximal digit run `d`; `.` matches
any one character; a trailing digit run is then required.  If the
character after `d` is followed by at least one digit the match is
`d ++ c :: e`; otherwise backtracking succeeds inside `d` alone whenever
`d` has at least three digits. -/
def alt1At (cs : List Char) : Option (List Char) :=
  let d := cs.takeWhile Char.isDigit
  let rest := cs.dropWhile Char.isDigit
  if d.isEmpty then none
  else
    match rest with
    | [] => if 3 ≤ d.length then some d else none
    | c :: rest2 =>
      let e := rest2.takeWhile Char.isDigit
      if !e.isEmpty then some (d ++ c :: e)
      else if 3 ≤ d.length then some d else none

/-- Modelled from the spec: leftmost match of the single-group pattern
`(\d+.\d+|\d+)` used by `clean_market_cap`; the group is the whole match,
so a bare digit run is still extracted when the first alternative fails. -/
def extractNumSingle : List Char → Option (List Char)
  | [] => none
  | c :: rest =>
    if c.isDigit then
      match alt1At (c :: rest) with
      | some m => some m
      | none => some ((c :: rest).takeWhile Char.isDigit)
    else extractNumSingle rest

/-- Modelled from the spec: leftmost match of the two-group pattern
`(\d+.\d+)|(\d+)` used by `parse_str_to_float`, extracting capture group 1
(the `str.extract` default), which participates only when the first
alternative matches: a bare digit run yields null. -/
def extractNumGroup1 : List Char → Option (List Char)
  | [] => none
  | c :: rest => if c.isDigit then alt1At (c :: rest) else extractNumGroup1 rest

/-- Decimal digits to a natural number. -/
def parseDigits (cs : List Char) : ℕ :=
  cs.foldl (fun n c => 10 * n + (c.toNat - '0'.toNat)) 0

/-- Cast of an extracted numeric string to a float, modelled exactly in
`ℚ`: an all-digit run, or a digit run, one `'.'`, and a digit run;
anything else (the `.` of the pattern having matched a non-dot character)
fails to cast and is modelled as null. -/
def parseDecQ (cs : List Char) : Option ℚ :=
  let d := cs.takeWhile Char.isDigit
  let rest := cs.dropWhile Char.isDigit
  if d.isEmpty then none
  else
    match rest with
    | [] => some (parseDigits d)
    | '.' :: frac =>
      if !frac.isEmpty && frac.all Char.isDigit then
        some (parseDigits d + parseDigits frac / 10 ^ frac.length)
      else none
    | _ => none

/-- The unit-suffix multiplier chain shared by `clean_market_cap` and
`parse_str_to_float`: `when(ends_with "K") 1e3 / when(ends_with "M") 1e6 /
when(ends_with "B") 1e9 / otherwise 1`, with `ends_with` of a one-char
suffix decided by the last character. -/
def suffixMultiplier (cs : List Char) : ℚ :=
  match cs.getLast? with
  | some 'K' => 1000
  | some 'M' => 1000000
  | some 'B' => 1000000000
  | _ => 1

/-- `clean_market_cap` (preppin_data/y2023/challenge08.py) on one cell:
extract `(\d+.\d+|\d+)`, cast to float, multiply by the unit-suffix
multiplier, cast to Int64 (truncation; all values reached here are
nonnegative, so modelled with the floor). -/
def cleanMarketCap (s : String) : Option ℤ :=
  (extractNumSingle s.data).bind fun m =>
    (parseDecQ m).map fun q => Int.floor (q * suffixMultiplier s.data)

/-- `parse_str_to_float` (2023/challenge08.py) on one cell: extract
capture group 1 of `(\d+.\d+)|(\d+)`, cast to float, multiply by the
unit-suffix multiplier; null propagates. -/
def parseStrToFloat (s : String) : Option ℚ :=
  (extractNumGroup1 s.data).bind fun m =>
    (parseDecQ m).map fun q => q * suffixMultiplier s.data

/-- C2 (counterexample): the claim requires every string parsed with the
unit-suffix rule to yield its numeric prefix, in particular `"$3" ↦ 3.0`;
but `parse_str_to_float` (2023/challenge08.py) extracts capture group 1 of
`(\d+.\d+)|(\d+)`, which does not participate when only the second
alternative matches, so `"$3"` parses to null, not `3.0`. -/
theorem parseStrToFloat_dollar3_not_three :
    parseStrToFloat "$3" ≠ some 3 := by decide

/-- C2 (amended): the y2023 implementation `clean_market_cap` (single
capture group) parses the column `["$1.5B", "$200M", "$750K", "$3"]` to
`[1.5e9, 2e8, 7.5e5, 3]`, and the suffix rule multiplies by 1e3/1e6/1e9
for a final `K`/`M`/`B` and by 1 otherwise; the earlier 2023
implementation `parse_str_to_float` agrees on the suffixed values but
yields null for suffix-free integer strings such as `"$3"`, because its
two-group pattern leaves capture group 1 empty there. -/
theorem cleanMarketCap_unit_suffix :
    (["$1.5B", "$200M", "$750K", "$3"].map cleanMarketCap)
      = [some 1500000000, some 200000000, some 750000, some 3] ∧
    parseStrToFloat "$1.5B" = some 1500000000 ∧
    parseStrToFloat "$200M" = some 200000000 ∧
    parseStrToFloat "$750K" = some 750000 ∧
    parseStrToFloat "$3" = none ∧
    (∀ cs : List Char, cs.getLast? = some 'K' → suffixMultiplier cs = 1000) ∧
    (∀ cs : List Char, cs.getLast? = some 'M' →
        suffixMultiplier cs = 1000000) ∧
    (∀ cs : List Char, cs.getLast? = some 'B' →
        suffixMultiplier cs = 1000000000) ∧
    (∀ (cs : List Char) (c : Char), cs.getLast? = some c →
        c ∉ (['K', 'M', 'B'] : List Char) → suffixMultiplier cs = 1) := by
  refine ⟨?_, ?_, ?_, ?_, by decide, ?_, ?_, ?_, ?_⟩
  · have h1 : cleanMarketCap "$1.5B" = some 1500000000 := by
      simp +decide [cleanMarketCap, extractNumSingle, alt1At, parseDecQ,
        parseDigits, suffixMultiplier]
      try norm_num
    have h2 : cleanMarketCap "$200M" = some 200000000 := by
      simp +decide [cleanMarketCap, extractNumSingle, alt1At, parseDecQ,
        parseDigits, suffixMultiplier]
      try norm_num
    have h3 : cleanMarketCap "$750K" = some 750000 := by
      simp +decide [cleanMarketCap, extractNumSingle, alt1At, parseDecQ,
        parseDigits, suffixMultiplier]
      try norm_num
    have h4 : cleanMarketCap "$3" = some 3 := by
      simp +decide [cleanMarketCap, extractNumSingle, alt1At, parseDecQ,
        parseDigits, suffixMultiplier]
      try norm_num
    simp [h1, h2, h3, h4]
  · simp +decide [parseStrToFloat, extractNumGroup1, alt1At, parseDecQ,
      parseDigits, suffixMultiplier]
    norm_num
  · simp +decide [parseStrToFloat, extractNumGroup1, alt1At, parseDecQ,
      parseDigits, suffixMultiplier]
    norm_num
  · simp +decide [parseStrToFloat, extractNumGroup1, alt1At, parseDecQ,
      parseDigits, suffixMultiplier]
    norm_num
  · intro cs h; simp [suffixMultiplier, h]
  · intro cs h; simp [suffixMultiplier, h]
  · intro cs h; simp [suffixMultiplier, h]
  · intro cs c h hc
    simp only [List.mem_cons, List.not_mem_nil, or_false, not_or] at hc
    obtain ⟨h1, h2, h3⟩ := hc
    simp [suffixMultiplier, h, h1, h2, h3]

/-- Witness for C2: the suffix-multiplier clauses instantiated at concrete
character lists. -/
theorem cleanMarketCap_unit_suffix_witness :
    suffixMultiplier ['2', 'K'] = 1000 ∧
    suffixMultiplier ['2', 'M'] = 1000000 ∧
    suffixMultiplier ['2', 'B'] = 1000000000 ∧
    suffixMultiplier ['2', '3'] = 1 :=
  ⟨cleanMarketCap_unit_suffix.2.2.2.2.2.1 ['2', 'K'] (by decide),
   cleanMarketCap_unit_suffix.2.2.2.2.2.2.1 ['2', 'M'] (by decide),
   cleanMarketCap_unit_suffix.2.2.2.2.2.2.2.1 ['2', 'B'] (by decide),
   cleanMarketCap_unit_suffix.2.2.2.2.2.2.2.2 ['2', '3'] '3' (by decide)
     (by decide)⟩

/-- Whether the rows `a` (left) and `b` (right) agree on the join column
`k`. -/
def keyMatches (k : String) (a b : Row) : Bool := getCell b k == getCell a k

/-- Modelled from the spec: `join(how="anti")` on one key column — the
left rows that have no match in the right table (the polars join engine is
not part of this repository's sources; null keys are modelled as plain
cell equality). -/
def antiJoin (A B : List Row) (k : String) : List Row :=
  A.filter fun a => !(B.any fun b => keyMatches k a b)

/-- Modelled from the spec: the output row of an inner join — the left
row, then the right row without its key column, with name collisions on
non-key columns suffixed `_right`. -/
def mergeRows (a b : Row) (k : String) : Row :=
  a ++ (b.filter fun p => p.1 != k).map fun p =>
    if (a.map Prod.fst).contains p.1 then (p.1 ++ "_right", p.2) else p

/-- Modelled from the spec: inner join on one key column — one output row
per matching left/right pair, in left-major order. -/
def innerJoin (A B : List Row) (k : String) : List Row :=
  A.flatMap fun a => (B.filter fun b => keyMatches k a b).map fun b =>
    mergeRows a b k

/-- If a key value does not occur in `B`'s key column, no row of `B`
passes the key filter. -/
theorem filter_key_eq_nil (B : List Row) (k : String) (v : Cell)
    (hv : v ∉ B.map fun b => getCell b k) :
    B.filter (fun b => getCell b k == v) = [] := by
  induction B with
  | nil => rfl
  | cons b B ih =>
    simp only [List.map_cons, List.mem_cons, not_or] at hv
    simp only [List.filter_cons]
    rw [if_neg (by simp [Ne.symm hv.1]), ih hv.2]

/-- If the key column of `B` has no duplicates and the key value occurs in
it, exactly one row of `B` passes the key filter. -/
theorem filter_key_singleton (B : List Row) (k : String) (v : Cell)
    (hB : (B.map fun b => getCell b k).Nodup)
    (hv : v ∈ B.map fun b => getCell b k) :
    (B.filter (fun b => getCell b k == v)).length = 1 := by
  induction B with
  | nil => simp at hv
  | cons b B ih =>
    simp only [List.map_cons, List.nodup_cons] at hB
    simp only [List.map_cons, List.mem_cons] at hv
    rcases hv with hv | hv
    · subst hv
      simp [List.filter_cons, filter_key_eq_nil B k _ hB.1]
    · have hne : getCell b k ≠ v := fun e => hB.1 (e ▸ hv)
      simp [List.filter_cons, hne, ih hB.2 hv]

/-- C3: the anti-join is the set difference — its rows are exactly the
left rows whose key value does not occur in the right key column — and
when the key is unique in the right table, the anti-join and the inner
join partition the left row count. -/
theorem antiJoin_set_difference :
    (∀ (A B : List Row) (k : String) (a : Row),
        a ∈ antiJoin A B k ↔
          a ∈ A ∧ getCell a k ∉ B.map fun b => getCell b k) ∧
    (∀ (A B : List Row) (k : String),
        (B.map fun b => getCell b k).Nodup →
        (antiJoin A B k).length + (innerJoin A B k).length = A.length) := by
  constructor
  · intro A B k a
    simp [antiJoin, keyMatches, List.mem_filter, List.mem_map]
  · intro A B k hB
    induction A with
    | nil => rfl
    | cons a A ih =>
      have hAnti : (antiJoin (a :: A) B k).length =
          (if (B.any fun b => keyMatches k a b) then 0 else 1) +
            (antiJoin A B k).length := by
        simp only [antiJoin, List.filter_cons]
        by_cases hc : (B.any fun b => keyMatches k a b) = true
        · simp [hc]
        · simp [Bool.eq_false_iff.2 hc, Nat.add_comm]
      have hInner : (innerJoin (a :: A) B k).length =
          (B.filter fun b => keyMatches k a b).length +
            (innerJoin A B k).length := by
        simp [innerJoin, List.flatMap_cons]
      rw [hAnti, hInner, List.length_cons]
      by_cases hm : getCell a k ∈ B.map fun b => getCell b k
      · have hany : (B.any fun b => keyMatches k a b) = true := by
          simp only [List.mem_map] at hm
          obtain ⟨b, hb, he⟩ := hm
          exact List.any_eq_true.2 ⟨b, hb, by simp [keyMatches, he]⟩
        have hfil : (B.filter fun b => keyMatches k a b).length = 1 := by
          simpa [keyMatches] using filter_key_singleton B k (getCell a k) hB hm
        rw [hany, hfil]
        simp only [if_true]
        omega
      · have hany : (B.any fun b => keyMatches k a b) = false := by
          simp only [List.any_eq_false, keyMatches]
          intro b hb
          simp only [beq_iff_eq]
          exact fun e => hm (List.mem_map.2 ⟨b, hb, e⟩)
        have hfil : (B.filter fun b => keyMatches k a b) = [] := by
          simpa [keyMatches] using
            filter_key_eq_nil B k (getCell a k) hm
        rw [hany, hfil]
        simp only [List.length_nil, if_false, Bool.false_eq_true]
        omega

/-- Witness for C3: a two-row left table against a one-row right table
with a unique key; the membership clause and the cardinality clause hold
on it. -/
theorem antiJoin_set_difference_witness :
    ([("k", some (Value.int 1))] ∈
        antiJoin [[("k", some (Value.int 1))], [("k", some (Value.int 2))]]
          [[("k", some (Value.int 2)), ("w", some (Value.str "x"))]] "k" ↔
      [("k", some (Value.int 1))] ∈
          [[("k", some (Value.int 1))], [("k", some (Value.int 2))]] ∧
        getCell [("k", some (Value.int 1))] "k" ∉
          ([[("k", some (Value.int 2)), ("w", some (Value.str "x"))]].map
            fun b => getCell b "k")) ∧
    (antiJoin [[("k", some (Value.int 1))], [("k", some (Value.int 2))]]
        [[("k", some (Value.int 2)), ("w", some (Value.str "x"))]]
        "k").length +
      (innerJoin [[("k", some (Value.int 1))], [("k", some (Value.int 2))]]
        [[("k", some (Value.int 2)), ("w", some (Value.str "x"))]]
        "k").length = 2 :=
  ⟨antiJoin_set_difference.1 _ _ "k" _,
   antiJoin_set_difference.2
     [[("k", some (Value.int 1))], [("k", some (Value.int 2))]]
     [[("k", some (Value.int 2)), ("w", some (Value.str "x"))]] "k"
     (by decide)⟩

/-- The union-of-schemas column list of a diagonal concatenation: the
left columns, then the right columns not already present, in order of
appearance. -/
def unionCols (colsA colsB : List String) : List String :=
  colsA ++ colsB.filter fun c => !colsA.contains c

/-- Re-index a row to a target schema; columns the row does not carry are
null-filled. -/
def reindexRow (cols : List String) (r : Row) : Row :=
  cols.map fun c => (c, getCell r c)

/-- Modelled from the spec: `pl.concat(how="diagonal")` of two tables with
the given schemas (the polars concat engine is not part of this
repository's sources): all rows of both inputs are stacked in argument
order, re-indexed to the union of the two schemas, with absent columns
null-filled per source table. -/
def diagonalConcat (colsA colsB : List String) (A B : List Row) :
    List Row :=
  (A ++ B).map (reindexRow (unionCols colsA colsB))

/-- A column absent from a row's schema reads as null. -/
theorem getCell_eq_none_of_not_mem (r : Row) (c : String)
    (h : c ∉ r.map Prod.fst) : getCell r c = none := by
  induction r with
  | nil => rfl
  | cons p r ih =>
    simp only [List.map_cons, List.mem_cons, not_or] at h
    cases p with
    | mk n v =>
      simp only [getCell]
      rw [if_neg (fun e => h.1 e.symm), ih h.2]

/-- Re-indexing preserves the cells of the columns it keeps. -/
theorem getCell_reindexRow (cols : List String) (r : Row) (c : String)
    (h : c ∈ cols) : getCell (reindexRow cols r) c = getCell r c := by
  induction cols with
  | nil => simp at h
  | cons c0 cols ih =>
    simp only [reindexRow, List.map_cons, getCell]
    by_cases he : c0 = c
    · rw [if_pos he, he]
    · rw [if_neg he]
      rcases List.mem_cons.1 h with h0 | h0
      · exact absurd h0.symm he
      · exact ih h0

/-- C5: diagonal concatenation stacks all rows of both inputs
(`len = len A + len B`), every output row carries the union of the two
schemas, and every column present only in `B` is null on all rows that
came from `A`. -/
theorem diagonalConcat_spec :
    (∀ (colsA colsB : List String) (A B : List Row),
        (diagonalConcat colsA colsB A B).length = A.length + B.length) ∧
    (∀ (colsA colsB : List String) (A B : List Row),
        ∀ r ∈ diagonalConcat colsA colsB A B,
          r.map Prod.fst = unionCols colsA colsB) ∧
    (∀ (colsA colsB : List String) (A B : List Row),
        (∀ a ∈ A, a.map Prod.fst = colsA) →
        ∀ r ∈ (diagonalConcat colsA colsB A B).take A.length,
          ∀ c ∈ colsB, c ∉ colsA → getCell r c = none) := by
  refine ⟨?_, ?_, ?_⟩
  · intro colsA colsB A B
    simp [diagonalConcat]
  · intro colsA colsB A B r hr
    simp only [diagonalConcat, List.mem_map] at hr
    obtain ⟨a, _, rfl⟩ := hr
    simp only [reindexRow, List.map_map]
    exact List.map_id'' (fun _ => rfl) _
  · intro colsA colsB A B hA r hr c hcB hcA
    have htake : (diagonalConcat colsA colsB A B).take A.length =
        A.map (reindexRow (unionCols colsA colsB)) := by
      have : A.length = (A.map (reindexRow (unionCols colsA colsB))).length :=
        (List.length_map _ _).symm
      rw [diagonalConcat, List.map_append, this, List.take_left]
    rw [htake] at hr
    simp only [List.mem_map] at hr
    obtain ⟨a, ha, rfl⟩ := hr
    have hmem : c ∈ unionCols colsA colsB := by
      simp only [unionCols, List.mem_append, List.mem_filter]
      exact Or.inr ⟨hcB, by simpa using hcA⟩
    rw [getCell_reindexRow _ _ _ hmem]
    exact getCell_eq_none_of_not_mem a c (by rw [hA a ha]; exact hcA)

/-- Witness for C5: a one-row/one-row instance with a column `w` present
only in the right table; the row that came from the left reads null
there. -/
theorem diagonalConcat_spec_witness :
    getCell [("k", some (Value.int 1)), ("w", none)] "w" = none :=
  diagonalConcat_spec.2.2 ["k"] ["k", "w"]
    [[("k", some (Value.int 1))]]
    [[("k", some (Value.int 2)), ("w", some (Value.str "x"))]]
    (by decide)
    [("k", some (Value.int 1)), ("w", none)]
    (by decide)
    "w" (by decide) (by decide)

/-- Modelled from the spec: `rolling_mean` with a row window of size `w`
and minimum-periods threshold `mp` over one (already sorted) partition:
row `i` averages the window of the last `min (w, i+1)` values ending at
`i`, and yields null when fewer than `mp` values are available. -/
def rollingMean (w mp : ℕ) (xs : List ℚ) : List (Option ℚ) :=
  (List.range xs.length).map fun i =>
    let win := (xs.take (i + 1)).drop (i + 1 - w)
    if mp ≤ win.length then some (win.sum / win.length) else none

/-- C7: a rolling mean with window 3 and `min_periods=3` is null exactly
on the first two rows of a partition and non-null on every later row
(stated as an iff on each row index), and the rolling-mean column has the
partition's length. -/
theorem rollingMean_min_periods :
    (∀ (xs : List ℚ) (i : ℕ), i < xs.length →
        ((rollingMean 3 3 xs).getD i none = none ↔ i < 2)) ∧
    (∀ (w mp : ℕ) (xs : List ℚ), (rollingMean w mp xs).length = xs.length) := by
  constructor
  · intro xs i hi
    have hwin : ((xs.take (i + 1)).drop (i + 1 - 3)).length =
        min (i + 1) xs.length - (i + 1 - 3) := by
      simp [List.length_drop, List.length_take]
    rw [rollingMean, List.getD_eq_getElem?_getD, List.getElem?_map,
      List.getElem?_range hi]
    simp only [Option.map_some', Option.getD_some]
    rcases Nat.lt_or_ge i 2 with h | h
    · rw [if_neg (by rw [hwin]; omega)]
      simp [h]
    · rw [if_pos (by rw [hwin]; omega)]
      simp [Nat.not_lt.2 (by omega : 2 ≤ i)]
  · intro w mp xs
    simp [rollingMean]

/-- Witness for C7: on the partition `[1, 2, 3]`, row 1 is null and row 2
is not. -/
theorem rollingMean_min_periods_witness :
    (rollingMean 3 3 [1, 2, 3]).getD 1 none = none ∧
    (rollingMean 3 3 [(1 : ℚ), 2, 3]).getD 2 none ≠ none :=
  ⟨(rollingMean_min_periods.1 [1, 2, 3] 1 (by norm_num)).mpr (by norm_num),
   fun he =>
     absurd ((rollingMean_min_periods.1 [1, 2, 3] 2 (by norm_num)).mp he)
       (by norm_num)⟩

/-- Modelled from the spec: `rank` with ties policy `"min"` over one
column (the polars rank primitive, used by `rank_categorized_trade` and
`view_seven_letter_word_analysis`, is not part of this repository's
sources): each value's rank is one plus the number of values ranked
strictly ahead of it — strictly greater values when descending, strictly
smaller when ascending — so tied values share the lowest rank of their
group. -/
def rankMin (desc : Bool) (xs : List ℚ) : List ℕ :=
  xs.map fun x =>
    1 + xs.countP fun y => if desc then decide (x < y) else decide (y < x)

/-- Insertion step of a descending insertion sort. -/
def insertDesc (a : ℚ) : List ℚ → List ℚ
  | [] => [a]
  | b :: l => if b ≤ a then a :: b :: l else b :: insertDesc a l

/-- Descending insertion sort. -/
def sortDesc : List ℚ → List ℚ
  | [] => []
  | a :: l => insertDesc a (sortDesc l)

/-- 0-indexed position of the first occurrence of `x` in a list (length
of the list when absent). -/
def posOfFirst (x : ℚ) : List ℚ → ℕ
  | [] => 0
  | y :: l => if y = x then 0 else posOfFirst x l + 1

/-- First-occurrence deduplication with an accumulator of already-seen
elements. -/
def firstUniqAux {α : Type} [DecidableEq α] (seen : List α) :
    List α → List α
  | [] => []
  | a :: l =>
    if a ∈ seen then firstUniqAux seen l
    else a :: firstUniqAux (a :: seen) l

/-- The distinct elements of a list in order of first appearance (the
order in which polars reports unique values). -/
def firstUniq {α : Type} [DecidableEq α] (l : List α) : List α :=
  firstUniqAux [] l

/-- The spec's wording for the `"min"` ties policy (for comparison with
the code's behaviour): each value's rank is its 1-indexed position among
the *sorted unique* values of the column. -/
def specUniqueRank (xs : List ℚ) : List ℕ :=
  xs.map fun x => posOfFirst x (firstUniq (sortDesc xs)) + 1

/-- Inserting into a list is a permutation of consing. -/
theorem insertDesc_perm (a : ℚ) (l : List ℚ) :
    List.Perm (insertDesc a l) (a :: l) := by
  induction l with
  | nil => exact List.Perm.refl _
  | cons b l ih =>
    rw [insertDesc]
    by_cases h : b ≤ a
    · rw [if_pos h]
    · rw [if_neg h]
      exact ((ih.cons b).trans (List.Perm.swap a b l))

/-- `sortDesc` permutes its input. -/
theorem sortDesc_perm (l : List ℚ) : List.Perm (sortDesc l) l := by
  induction l with
  | nil => exact List.Perm.refl _
  | cons a l ih =>
    exact (insertDesc_perm a (sortDesc l)).trans (ih.cons a)

/-- Insertion preserves descending sortedness. -/
theorem insertDesc_sorted (a : ℚ) (l : List ℚ)
    (h : List.Pairwise (fun x y => y ≤ x) l) :
    List.Pairwise (fun x y => y ≤ x) (insertDesc a l) := by
  induction l with
  | nil => simp [insertDesc]
  | cons b l ih =>
    rw [List.pairwise_cons] at h
    rw [insertDesc]
    by_cases hba : b ≤ a
    · rw [if_pos hba]
      refine List.pairwise_cons.2 ⟨?_, List.pairwise_cons.2 ⟨h.1, h.2⟩⟩
      intro z hz
      rcases List.mem_cons.1 hz with rfl | hz
      · exact hba
      · exact le_trans (h.1 z hz) hba
    · rw [if_neg hba]
      refine List.pairwise_cons.2 ⟨?_, ih h.2⟩
      intro z hz
      have := (insertDesc_perm a l).mem_iff.1 hz
      rcases List.mem_cons.1 this with rfl | hz2
      · exact le_of_not_le hba
      · exact h.1 z hz2

/-- `sortDesc` sorts descending. -/
theorem sortDesc_sorted (l : List ℚ) :
    List.Pairwise (fun x y => y ≤ x) (sortDesc l) := by
  induction l with
  | nil => exact List.Pairwise.nil
  | cons a l ih => exact insertDesc_sorted a (sortDesc l) ih

/-- In a descending-sorted list, the first occurrence of a member `x`
sits right after the values strictly greater than `x`. -/
theorem posOfFirst_sorted (x : ℚ) (l : List ℚ)
    (hs : List.Pairwise (fun a b => b ≤ a) l) (hx : x ∈ l) :
    posOfFirst x l = l.countP fun y => decide (x < y) := by
  induction l with
  | nil => simp at hx
  | cons y l ih =>
    rw [List.pairwise_cons] at hs
    by_cases hyx : y = x
    · subst hyx
      rw [posOfFirst, if_pos rfl, List.countP_cons]
      have h0 : l.countP (fun z => decide (y < z)) = 0 :=
        List.countP_eq_zero.2 fun z hz => by
          simpa using not_lt_of_le (hs.1 z hz)
      simp [h0]
    · have hxl : x ∈ l := by
        rcases List.mem_cons.1 hx with h | h
        · exact absurd h.symm hyx
        · exact h
      have hlt : x < y := lt_of_le_of_ne (hs.1 x hxl) (fun e => hyx e.symm)
      rw [posOfFirst, if_neg hyx, List.countP_cons, ih hs.2 hxl]
      simp [hlt]

/-- C6 (counterexample): the claim's general rule — rank equals the
1-indexed position among sorted *unique* values — contradicts its own
example and the code: on `[10, 10, 5]` descending it assigns `[1, 1, 2]`,
while the `"min"` ties policy assigns `[1, 1, 3]`. -/
theorem rankMin_unique_position_false :
    rankMin true [10, 10, 5] = [1, 1, 3] ∧
    specUniqueRank [10, 10, 5] = [1, 1, 2] ∧
    ([1, 1, 3] : List ℕ) ≠ [1, 1, 2] := by
  refine ⟨by decide, by decide, by decide⟩

/-- C6 (amended): under the `"min"` ties policy, tied values receive the
same rank, equal to their 1-indexed position among the sorted values
*counting multiplicity* (one plus the number of values ranked strictly
ahead); in particular `[10, 10, 5]` ranked descending receives
`[1, 1, 3]`. -/
theorem rankMin_ties_and_position :
    (∀ (desc : Bool) (xs : List ℚ) (i j : ℕ),
        i < xs.length → j < xs.length → xs.getD i 0 = xs.getD j 0 →
        (rankMin desc xs).getD i 0 = (rankMin desc xs).getD j 0) ∧
    (∀ (xs : List ℚ) (i : ℕ), i < xs.length →
        (rankMin true xs).getD i 0 =
          posOfFirst (xs.getD i 0) (sortDesc xs) + 1) ∧
    rankMin true [10, 10, 5] = [1, 1, 3] := by
  have hlen : ∀ (desc : Bool) (xs : List ℚ),
      (rankMin desc xs).length = xs.length := by
    intro desc xs; simp [rankMin]
  refine ⟨?_, ?_, by decide⟩
  · intro desc xs i j hi hj hij
    rw [List.getD_eq_getElem _ _ (by rw [hlen]; exact hi),
      List.getD_eq_getElem _ _ (by rw [hlen]; exact hj)]
    rw [List.getD_eq_getElem _ _ hi, List.getD_eq_getElem _ _ hj] at hij
    simp only [rankMin, List.getElem_map]
    rw [hij]
  · intro xs i hi
    rw [List.getD_eq_getElem _ _ (by rw [hlen]; exact hi),
      List.getD_eq_getElem _ _ hi]
    simp only [rankMin, List.getElem_map]
    rw [posOfFirst_sorted _ _ (sortDesc_sorted xs)
      ((sortDesc_perm xs).mem_iff.2 (xs.getElem_mem _)),
      (sortDesc_perm xs).countP_eq]
    exact Nat.add_comm 1 _

/-- Witness for C6: the ties clause and the sorted-position clause
instantiated on the claim's own column `[10, 10, 5]`. -/
theorem rankMin_ties_and_position_witness :
    (rankMin true [10, 10, 5]).getD 0 0 = (rankMin true [10, 10, 5]).getD 1 0 ∧
    (rankMin true [10, 10, 5]).getD 2 0 =
      posOfFirst (([10, 10, 5] : List ℚ).getD 2 0) (sortDesc [10, 10, 5]) + 1 :=
  ⟨rankMin_ties_and_position.1 true [10, 10, 5] 0 1 (by norm_num) (by norm_num)
     (by norm_num),
   rankMin_ties_and_position.2.1 [10, 10, 5] 2 (by norm_num)⟩

/-- The ties policies of the rank primitive. -/
inductive RankMethod where
  | min
  | ordinal
  | random
deriving DecidableEq

/-- Whether row `j` is ordered before row `i` inside a group of tied
values: `min` never separates ties (they share the lowest rank),
`ordinal` orders by original position, `random` by the engine's tie-break
oracle. -/
def tieBefore : RankMethod → List ℕ → ℕ → ℕ → Bool
  | .min, _, _, _ => false
  | .ordinal, _, j, i => decide (j < i)
  | .random, tb, j, i => decide (tb.getD j 0 < tb.getD i 0)

/-- Whether value `y` is ranked strictly ahead of value `x`. -/
def ahead (desc : Bool) (y x : ℚ) : Bool :=
  if desc then decide (x < y) else decide (y < x)

/-- Modelled from the spec: `rank(method).over(partition)` — for each row
(a partition key paired with a value), one plus the number of rows of the
same partition ranked strictly ahead of it: strictly better values, or
tied values the ties policy orders first.  The `oracle` list models the
engine's random tie-break source and is consulted only by
`method = random`; this makes the otherwise-ambient randomness an
explicit input. -/
def rankOver {κ : Type} [DecidableEq κ] (m : RankMethod) (oracle : List ℕ)
    (desc : Bool) (rows : List (κ × ℚ)) : List ℕ :=
  (rows.enum).map fun p =>
    1 + (rows.enum).countP fun q =>
      q.2.1 == p.2.1 &&
        (ahead desc q.2.2 p.2.2 ||
          (q.2.2 == p.2.2 && tieBefore m oracle q.1 p.1))

/-- `rank` with ties policy `min` ignores the random tie-break oracle. -/
theorem rankOver_min_oracle_indep {κ : Type} [DecidableEq κ]
    (o1 o2 : List ℕ) (desc : Bool) (rows : List (κ × ℚ)) :
    rankOver .min o1 desc rows = rankOver .min o2 desc rows := by
  simp [rankOver, tieBefore]

/-- A preprocessed trade row of y2023/challenge08.py (the columns its
analysis stage reads). -/
structure TradeRow where
  fileDate : ℤ
  marketCap : ℤ
  purchasePrice : ℚ
deriving DecidableEq

/-- `categorize_trade` (y2023/challenge08.py): annotate each trade with
its market-cap and purchase-price categories (the two conditional
chains). -/
def categorizeTrade (rows : List TradeRow) :
    List (TradeRow × String × String) :=
  rows.map fun r =>
    (r, (marketCapCategory r.marketCap).getD "Huge",
      (purchasePriceCategory r.purchasePrice).getD "Very Large")

/-- Strict lexicographic comparison of strings via character lists. -/
def strLtB (s t : String) : Bool := charsLt s.data t.data

/-- Insertion step of a generic insertion sort with a boolean `le`. -/
def insertSortedBy {β : Type} (le : β → β → Bool) (a : β) :
    List β → List β
  | [] => [a]
  | b :: l => if le a b then a :: b :: l else b :: insertSortedBy le a l

/-- Generic insertion sort with a boolean `le` (the deterministic model
of the engine's multi-key sort). -/
def sortListBy {β : Type} (le : β → β → Bool) : List β → List β
  | [] => []
  | a :: l => insertSortedBy le a (sortListBy le l)

/-- The multi-key sort order of `rank_categorized_trade`: file date,
market-cap category, purchase-price category, rank. -/
def tradeLe (a b : ℤ × String × String × ℚ × ℕ) : Bool :=
  if a.1 != b.1 then decide (a.1 < b.1)
  else if a.2.1 != b.2.1 then strLtB a.2.1 b.2.1
  else if a.2.2.1 != b.2.2.1 then strLtB a.2.2.1 b.2.2.1
  else decide (a.2.2.2.2 ≤ b.2.2.2.2)

/-- `rank_categorized_trade` (y2023/challenge08.py): rank the purchase
price with ties policy `"min"` (ascending) over the partition (file date,
market-cap category, purchase-price category), then sort by those keys
and the rank. -/
def rankCategorizedTrade (oracle : List ℕ) (rows : List TradeRow) :
    List (ℤ × String × String × ℚ × ℕ) :=
  sortListBy tradeLe
    (((categorizeTrade rows).zip
        (rankOver .min oracle false
          ((categorizeTrade rows).map fun p =>
            ((p.1.fileDate, p.2.1, p.2.2), p.1.purchasePrice)))).map
      fun p => (p.1.1.fileDate, p.1.2.1, p.1.2.2, p.1.1.purchasePrice, p.2))

/-- `view_top_five_monthly_trades` (y2023/challenge08.py): keep the rows
ranked at most 5. -/
def viewTopFiveMonthlyTrades (oracle : List ℕ) (rows : List TradeRow) :
    List (ℤ × String × String × ℚ × ℕ) :=
  (rankCategorizedTrade oracle rows).filter fun p =>
    decide (p.2.2.2.2 ≤ 5)

/-- `rank_data` (2023/challenge08.py): rank the purchase price with
`method="random"`, descending, over (market-capitalization category,
purchase-price category, traded-in month); the random tie-break comes
from the oracle. -/
def rankData (oracle : List ℕ)
    (rows : List ((String × String × ℤ) × ℚ)) : List ℕ :=
  rankOver .random oracle true rows

/-- C8: the y2023 challenge-08 analysis pipeline (which ranks with ties
policy `"min"`) produces identical output for any two values of the
random tie-break oracle — it is deterministic in its input alone — while
the 2023 `rank_data` (ties policy `"random"`, unseeded) genuinely depends
on the oracle on tied values, so its output is only reproducible modulo
that documented randomness. -/
theorem solve_deterministic_modulo_random_rank :
    (∀ (rows : List TradeRow) (o1 o2 : List ℕ),
        viewTopFiveMonthlyTrades o1 rows = viewTopFiveMonthlyTrades o2 rows) ∧
    rankData [0, 1] [(("a", "b", 1), 10), (("a", "b", 1), 10)] ≠
      rankData [1, 0] [(("a", "b", 1), 10), (("a", "b", 1), 10)] := by
  constructor
  · intro rows o1 o2
    unfold viewTopFiveMonthlyTrades rankCategorizedTrade
    rw [rankOver_min_oracle_indep o1 o2]
  · decide

/-- An entry of the preprocessed scrabble-score table of
y2022/challenge06.py: a letter, its points, and its tile frequency. -/
structure ScoreEntry where
  letter : Char
  points : ℤ
  frequency : ℕ
deriving DecidableEq

/-- The total number of tiles (`frequency.sum()` in
`view_letter_probability`). -/
def totalTiles (score : List ScoreEntry) : ℕ :=
  (score.map fun e => e.frequency).sum

/-- `view_letter_probability` (y2022/challenge06.py) for one entry: the
probability of drawing the letter is its tile frequency over the total
tile count. -/
def letterProbability (score : List ScoreEntry) (e : ScoreEntry) : ℚ :=
  (e.frequency : ℚ) / (totalTiles score : ℚ)

/-- `aggregate_letters_per_word` (y2022/challenge06.py) for one word: its
distinct letters with their multiplicities. -/
def wordLetterCounts (w : String) : List (Char × ℕ) :=
  (firstUniq w.data).map fun c => (c, w.data.count c)

/-- The scrabble-score row joined to a letter (inner join on the letter
column: a missing letter produces no row). -/
def findScore (score : List ScoreEntry) (c : Char) : Option ScoreEntry :=
  score.find? fun e => e.letter == c

/-- `view_word_probability` (y2022/challenge06.py) for one word: the
product, over its distinct letters joined with the score table, of the
letter probability raised to the letter's count when the count does not
exceed the tile frequency, and of a zero factor otherwise. -/
def wordProbability (score : List ScoreEntry) (w : String) : ℚ :=
  ((wordLetterCounts w).filterMap fun p =>
    (findScore score p.1).map fun e =>
      if p.2 ≤ e.frequency then letterProbability score e ^ p.2 else 0).prod

/-- `view_total_points_per_word` (y2022/challenge06.py) for one word. -/
def wordTotalPoints (score : List ScoreEntry) (w : String) : ℤ :=
  ((wordLetterCounts w).filterMap fun p =>
    (findScore score p.1).map fun e => (p.2 : ℤ) * e.points).sum

/-- `view_seven_letter_word_analysis` (y2022/challenge06.py): join each
word with its probability and total points, keep the rows with strictly
positive probability, and add descending `"min"` ranks of both columns. -/
def viewSevenLetterWordAnalysis (words : List String)
    (score : List ScoreEntry) : List (String × ℚ × ℤ × ℕ × ℕ) :=
  let kept :=
    (words.map fun w =>
      (w, wordProbability score w, wordTotalPoints score w)).filter
      fun p => decide (0 < p.2.1)
  let probRanks := rankMin true (kept.map fun p => p.2.1)
  let pointRanks := rankMin true (kept.map fun p => (p.2.2 : ℚ))
  (kept.zip (probRanks.zip pointRanks)).map fun p =>
    (p.1.1, p.1.2.1, p.1.2.2, p.2.1, p.2.2)

/-- C9: a word's drawing probability is the product over its distinct
letters of the letter-tile probability raised to the letter's count, and
is exactly 0 whenever some letter's count exceeds that letter's tile
frequency; consequently (via the `probability > 0` filter) every row of
the final analysis output has strictly positive probability. -/
theorem wordProbability_spec :
    (∀ (score : List ScoreEntry) (w : String) (p : Char × ℕ),
        p ∈ wordLetterCounts w → ∀ e : ScoreEntry,
        findScore score p.1 = some e → e.frequency < p.2 →
        wordProbability score w = 0) ∧
    (∀ (score : List ScoreEntry) (w : String),
        (∀ p ∈ wordLetterCounts w, ∃ e : ScoreEntry,
          findScore score p.1 = some e ∧ p.2 ≤ e.frequency) →
        wordProbability score w =
          ((wordLetterCounts w).filterMap fun p =>
            (findScore score p.1).map fun e =>
              letterProbability score e ^ p.2).prod) ∧
    (∀ (words : List String) (score : List ScoreEntry)
        (row : String × ℚ × ℤ × ℕ × ℕ),
        row ∈ viewSevenLetterWordAnalysis words score → 0 < row.2.1) := by
  refine ⟨?_, ?_, ?_⟩
  · intro score w p hp e hfind hlt
    apply List.prod_eq_zero
    refine List.mem_filterMap.2 ⟨p, hp, ?_⟩
    rw [hfind, Option.map_some']
    rw [if_neg (by omega)]
  · intro score w h
    unfold wordProbability
    congr 1
    apply List.filterMap_congr
    intro p hp
    obtain ⟨e, hfind, hle⟩ := h p hp
    rw [hfind, Option.map_some', Option.map_some', if_pos hle]
  · intro words score row hrow
    simp only [viewSevenLetterWordAnalysis] at hrow
    rw [List.mem_map] at hrow
    obtain ⟨p, hp, rfl⟩ := hrow
    have hkept := (List.of_mem_zip hp).1
    rw [List.mem_filter] at hkept
    simpa using hkept.2

/-- Witness for C9: with tiles `A` (2 tiles) and `B` (1 tile), the word
`AAAB` needs three `A`s and has probability exactly 0, and the word `AB`
satisfies the per-letter frequency bounds so its probability is the
product of per-letter probabilities. -/
theorem wordProbability_spec_witness :
    wordProbability
      [⟨'A', 1, 2⟩, ⟨'B', 3, 1⟩] "AAAB" = 0 ∧
    wordProbability [⟨'A', 1, 2⟩, ⟨'B', 3, 1⟩] "AB" =
      ((wordLetterCounts "AB").filterMap fun p =>
        (findScore [⟨'A', 1, 2⟩, ⟨'B', 3, 1⟩] p.1).map fun e =>
          letterProbability [⟨'A', 1, 2⟩, ⟨'B', 3, 1⟩] e ^ p.2).prod :=
  ⟨wordProbability_spec.1 [⟨'A', 1, 2⟩, ⟨'B', 3, 1⟩] "AAAB" ('A', 3)
      (by decide) ⟨'A', 1, 2⟩ (by decide) (by decide),
   wordProbability_spec.2.1 [⟨'A', 1, 2⟩, ⟨'B', 3, 1⟩] "AB" (by decide)⟩

/-- The projection of a row onto the identifier columns (the pivot
grouping key). -/
def projKey (ids : List String) (r : Row) : List Cell :=
  ids.map fun c => getCell r c

/-- The identifier part of a melted row: the identifier columns with
their cells, in the order the identifiers were given. -/
def idPart (ids : List String) (r : Row) : Row :=
  ids.map fun c => (c, getCell r c)

/-- One melted output row: the identifier columns, then the name column
holding the melted column's name and the value column holding its cell. -/
def meltRow (ids : List String) (varName valName c : String) (r : Row) :
    Row :=
  idPart ids r ++ [(varName, some (.str c)), (valName, getCell r c)]

/-- Modelled from the spec: `melt(id_vars=ids)` of a table with schema
`cols` (the polars reshape engine is not part of this repository's
sources): the value columns are the non-identifier columns in table
order; the output stacks, per value column, one row per input row
(column-major, as polars does). -/
def melt (cols ids : List String) (varName valName : String)
    (t : List Row) : List Row :=
  (cols.filter fun c => !ids.contains c).flatMap fun c =>
    t.map (meltRow ids varName valName c)

/-- The string payload of a cell, when it is a string. -/
def cellStr : Cell → Option String
  | some (.str s) => some s
  | _ => none

/-- The cell of the first row carrying the given index-tuple and the
given name (the "keep first" default aggregation of pivot). -/
def firstMatchCell (t : List Row) (index : List String) (k : List Cell)
    (namesCol n valuesCol : String) : Cell :=
  match t.find? (fun r =>
      projKey index r == k && getCell r namesCol == some (.str n)) with
  | some r => getCell r valuesCol
  | none => none

/-- Modelled from the spec: `pivot(values, index, columns)` — one output
row per distinct index-tuple in order of first appearance, one output
column per distinct name in the names column in order of first
appearance, each cell resolved by the "keep first" default
aggregation. -/
def pivot (index : List String) (namesCol valuesCol : String)
    (t : List Row) : List Row :=
  let keys := firstUniq (t.map fun r => projKey index r)
  let names := firstUniq (t.filterMap fun r => cellStr (getCell r namesCol))
  keys.map fun k =>
    (index.zip k) ++ names.map fun n =>
      (n, firstMatchCell t index k namesCol n valuesCol)

/-- `firstUniqAux` only consults the membership of its seen-set. -/
theorem firstUniqAux_congr {α : Type} [DecidableEq α] (l : List α) :
    ∀ s1 s2 : List α, (∀ x, x ∈ s1 ↔ x ∈ s2) →
      firstUniqAux s1 l = firstUniqAux s2 l := by
  induction l with
  | nil => intro s1 s2 _; rfl
  | cons a l ih =>
    intro s1 s2 h
    by_cases ha : a ∈ s1
    · simp only [firstUniqAux, if_pos ha, if_pos ((h a).1 ha)]
      exact ih s1 s2 h
    · simp only [firstUniqAux, if_neg ha, if_neg (fun c => ha ((h a).2 c))]
      refine congrArg (a :: ·) (ih _ _ ?_)
      intro x
      simp only [List.mem_cons]
      exact or_congr Iff.rfl (h x)

/-- Splitting `firstUniqAux` across an append: the second part is
deduplicated against the first part as well. -/
theorem firstUniqAux_append {α : Type} [DecidableEq α] (l1 : List α) :
    ∀ (s l2 : List α),
      firstUniqAux s (l1 ++ l2) =
        firstUniqAux s l1 ++ firstUniqAux (l1 ++ s) l2 := by
  induction l1 with
  | nil => intro s l2; simp [firstUniqAux]
  | cons a l1 ih =>
    intro s l2
    by_cases ha : a ∈ s
    · simp only [List.cons_append, List.append_eq, firstUniqAux, if_pos ha]
      rw [ih s l2]
      refine congrArg (firstUniqAux s l1 ++ ·)
        (firstUniqAux_congr l2 _ _ fun x => ?_)
      simp only [List.mem_append, List.mem_cons]
      constructor
      · intro hx; tauto
      · intro hx; rcases hx with rfl | hx
        · exact Or.inr ha
        · exact hx
    · simp only [List.cons_append, List.append_eq, firstUniqAux, if_neg ha]
      rw [ih (a :: s) l2]
      refine congrArg (a :: ·)
        (congrArg (firstUniqAux (a :: s) l1 ++ ·)
          (firstUniqAux_congr l2 _ _ fun x => ?_))
      simp only [List.mem_append, List.mem_cons]
      tauto

/-- `firstUniqAux` drops a list fully contained in the seen-set. -/
theorem firstUniqAux_eq_nil {α : Type} [DecidableEq α] (l : List α) :
    ∀ s : List α, (∀ x ∈ l, x ∈ s) → firstUniqAux s l = [] := by
  induction l with
  | nil => intro s _; rfl
  | cons a l ih =>
    intro s h
    simp only [firstUniqAux, if_pos (h a (List.mem_cons_self a l))]
    exact ih s fun x hx => h x (List.mem_cons_of_mem a hx)

/-- Seen-set entries that never occur in the list are irrelevant. -/
theorem firstUniqAux_seen_irrel {α : Type} [DecidableEq α] (l : List α) :
    ∀ s1 s2 : List α, (∀ x ∈ l, x ∉ s1) →
      firstUniqAux (s1 ++ s2) l = firstUniqAux s2 l := by
  induction l with
  | nil => intro s1 s2 _; rfl
  | cons a l ih =>
    intro s1 s2 h
    have ha1 : a ∉ s1 := h a (List.mem_cons_self a l)
    by_cases ha : a ∈ s2
    · simp only [firstUniqAux, if_pos (List.mem_append.2 (Or.inr ha)),
        if_pos ha]
      exact ih s1 s2 fun x hx => h x (List.mem_cons_of_mem a hx)
    · have hnot : a ∉ s1 ++ s2 := fun hc => by
        rcases List.mem_append.1 hc with h1 | h2
        · exact ha1 h1
        · exact ha h2
      simp only [firstUniqAux, if_neg hnot, if_neg ha]
      refine congrArg (a :: ·) ?_
      rw [firstUniqAux_congr l (a :: (s1 ++ s2)) (s1 ++ (a :: s2))
        (by intro x; simp only [List.mem_cons, List.mem_append]; tauto)]
      exact ih s1 (a :: s2) fun x hx => h x (List.mem_cons_of_mem a hx)

/-- `firstUniqAux` is the identity on duplicate-free lists disjoint from
the seen-set. -/
theorem firstUniqAux_eq_self {α : Type} [DecidableEq α] (l : List α) :
    ∀ s : List α, l.Nodup → (∀ x ∈ l, x ∉ s) → firstUniqAux s l = l := by
  induction l with
  | nil => intro s _ _; rfl
  | cons a l ih =>
    intro s hn h
    rw [List.nodup_cons] at hn
    simp only [firstUniqAux, if_neg (h a (List.mem_cons_self a l))]
    refine congrArg (a :: ·) (ih (a :: s) hn.2 fun x hx hc => ?_)
    rcases List.mem_cons.1 hc with rfl | hc2
    · exact hn.1 hx
    · exact h x (List.mem_cons_of_mem a hx) hc2

/-- Appending elements that already occur does not change the
first-occurrence deduplication. -/
theorem firstUniq_append_subset {α : Type} [DecidableEq α]
    (l1 l2 : List α) (h : ∀ x ∈ l2, x ∈ l1) :
    firstUniq (l1 ++ l2) = firstUniq l1 := by
  rw [firstUniq, firstUniqAux_append, firstUniq]
  rw [firstUniqAux_eq_nil l2 (l1 ++ []) fun x hx => by
    simpa using h x hx]
  simp

/-- `firstUniq` is the identity on duplicate-free lists. -/
theorem firstUniq_eq_self {α : Type} [DecidableEq α] (l : List α)
    (h : l.Nodup) : firstUniq l = l :=
  firstUniqAux_eq_self l [] h (by simp)

/-- Deduplicating a block-constant flattening recovers the block
labels. -/
theorem firstUniq_flatMap_const {α β : Type} [DecidableEq α]
    (t : List β) (ht : t ≠ []) (l : List α) (hl : l.Nodup) :
    firstUniq (l.flatMap fun c => t.map fun _ => c) = l := by
  obtain ⟨b, t', rfl⟩ : ∃ b t', t = b :: t' := by
    cases t with
    | nil => exact absurd rfl ht
    | cons b t' => exact ⟨b, t', rfl⟩
  induction l with
  | nil => rfl
  | cons c l ih =>
    rw [List.nodup_cons] at hl
    have hrest : ∀ x ∈ l.flatMap fun c' => (b :: t').map fun _ => c',
        x ∈ l := by
      intro x hx
      simp only [List.mem_flatMap, List.mem_map] at hx
      obtain ⟨c', hc', _, _, rfl⟩ := hx
      exact hc'
    simp only [List.flatMap_cons, List.map_cons, List.cons_append,
      List.append_eq]
    rw [firstUniq, firstUniqAux, if_neg (by simp)]
    rw [firstUniqAux_append]
    rw [firstUniqAux_eq_nil (t'.map fun _ => c) [c] (by simp)]
    rw [firstUniqAux_congr _ ((t'.map fun _ => c) ++ [c]) [c]
      (by intro x; simp)]
    have hirr := firstUniqAux_seen_irrel
      (l.flatMap fun c' => (b :: t').map fun _ => c') [c] []
      (fun x hx => by
        simp only [List.mem_cons, List.not_mem_nil, or_false]
        exact fun e => hl.1 (e ▸ hrest x hx))
    simp only [List.singleton_append] at hirr
    simp only [List.map_cons] at hirr ih
    rw [List.nil_append, hirr]
    exact congrArg (c :: ·) (ih hl.2)

/-- A name absent from the leading part of an appended row is looked up
in the trailing part. -/
theorem getCell_append_not_memFst (pre rest : Row) (c : String)
    (h : c ∉ pre.map Prod.fst) :
    getCell (pre ++ rest) c = getCell rest c := by
  induction pre with
  | nil => rfl
  | cons p pre ih =>
    simp only [List.map_cons, List.mem_cons, not_or] at h
    cases p with
    | mk n v =>
      simp only [List.cons_append, List.append_eq, getCell]
      rw [if_neg (fun e => h.1 (by simpa using e.symm)), ih h.2]

/-- A name present in the leading part of an appended row is resolved
there. -/
theorem getCell_append_memFst (pre rest : Row) (c : String)
    (h : c ∈ pre.map Prod.fst) :
    getCell (pre ++ rest) c = getCell pre c := by
  induction pre with
  | nil => simp at h
  | cons p pre ih =>
    cases p with
    | mk n v =>
      simp only [List.cons_append, List.append_eq, getCell]
      by_cases he : n = c
      · rw [if_pos he, if_pos he]
      · rw [if_neg he, if_neg he]
        refine ih ?_
        simp only [List.map_cons, List.mem_cons] at h
        rcases h with h | h
        · exact absurd h.symm he
        · exact h

/-- The identifier part of a melted row keeps the identifier cells. -/
theorem getCell_idPart (ids : List String) (r : Row) (c : String)
    (h : c ∈ ids) : getCell (idPart ids r) c = getCell r c := by
  induction ids with
  | nil => simp at h
  | cons i ids ih =>
    simp only [idPart, List.map_cons, getCell]
    by_cases he : i = c
    · rw [if_pos he, he]
    · rw [if_neg he]
      rcases List.mem_cons.1 h with h0 | h0
      · exact absurd h0.symm he
      · exact ih h0

/-- The column names of the identifier part are the identifiers. -/
theorem idPart_map_fst (ids : List String) (r : Row) :
    (idPart ids r).map Prod.fst = ids := by
  rw [idPart, List.map_map]
  exact List.map_id'' (fun _ => rfl) _

/-- Pointwise-equal functions map lists equally. -/
theorem map_congr_of_mem {α β : Type} (l : List α) (f g : α → β)
    (h : ∀ a ∈ l, f a = g a) : l.map f = l.map g := by
  induction l with
  | nil => rfl
  | cons a l ih =>
    simp only [List.map_cons]
    rw [h a (List.mem_cons_self a l),
      ih fun x hx => h x (List.mem_cons_of_mem a hx)]

/-- Zipping a list with its own image is mapping into pairs. -/
theorem zip_map_self {α β : Type} (l : List α) (g : α → β) :
    l.zip (l.map g) = l.map fun a => (a, g a) := by
  induction l with
  | nil => rfl
  | cons a l ih => simp [List.zip_cons_cons, ih]

/-- A row with duplicate-free column names is the table of its own
lookups. -/
theorem row_eq_map_getCell (r : Row) (h : (r.map Prod.fst).Nodup) :
    r = (r.map Prod.fst).map fun c => (c, getCell r c) := by
  induction r with
  | nil => rfl
  | cons p r ih =>
    cases p with
    | mk n v =>
      simp only [List.map_cons, List.nodup_cons] at h
      have hcell : ∀ c ∈ r.map Prod.fst,
          getCell ((n, v) :: r) c = getCell r c := by
        intro c hc
        simp only [getCell]
        rw [if_neg fun e => h.1 (by rw [e]; exact hc)]
      have hhead : getCell ((n, v) :: r) n = v := by
        simp [getCell]
      simp only [List.map_cons]
      rw [hhead]
      refine congrArg ((n, v) :: ·) ?_
      rw [map_congr_of_mem (r.map Prod.fst)
        (fun c => (c, getCell ((n, v) :: r) c))
        (fun c => (c, getCell r c))
        (fun c hc => by
          show (c, getCell ((n, v) :: r) c) = (c, getCell r c)
          rw [hcell c hc])]
      exact ih h.2

/-- The name cell of a melted row. -/
theorem getCell_meltRow_var (ids : List String) (varName valName c : String)
    (r : Row) (h : varName ∉ ids) :
    getCell (meltRow ids varName valName c r) varName =
      some (.str c) := by
  rw [meltRow, getCell_append_not_memFst _ _ _ (by rw [idPart_map_fst]; exact h)]
  simp [getCell]

/-- The value cell of a melted row. -/
theorem getCell_meltRow_val (ids : List String) (varName valName c : String)
    (r : Row) (hval : valName ∉ ids) (hne : varName ≠ valName) :
    getCell (meltRow ids varName valName c r) valName = getCell r c := by
  rw [meltRow, getCell_append_not_memFst _ _ _ (by rw [idPart_map_fst]; exact hval)]
  simp [getCell, hne]

/-- Melting preserves the pivot grouping key. -/
theorem projKey_meltRow (ids : List String) (varName valName c : String)
    (r : Row) :
    projKey ids (meltRow ids varName valName c r) = projKey ids r := by
  refine map_congr_of_mem ids _ _ fun i hi => ?_
  rw [meltRow, getCell_append_memFst _ _ _ (by rw [idPart_map_fst]; exact hi),
    getCell_idPart _ _ _ hi]

/-- `find?` skips a prefix with no hit. -/
theorem find?_append_none {α : Type} (p : α → Bool) (l1 l2 : List α)
    (h : l1.find? p = none) : (l1 ++ l2).find? p = l2.find? p := by
  induction l1 with
  | nil => rfl
  | cons a l1 ih =>
    by_cases hpa : p a = true
    · rw [List.find?_cons_of_pos _ hpa] at h
      exact absurd h (by simp)
    · rw [List.find?_cons_of_neg _ (by simpa using hpa)] at h
      rw [List.cons_append, List.find?_cons_of_neg _ (by simpa using hpa)]
      exact ih h

/-- `find?` keeps a hit found in the prefix. -/
theorem find?_append_some {α : Type} (p : α → Bool) (l1 l2 : List α)
    (x : α) (h : l1.find? p = some x) : (l1 ++ l2).find? p = some x := by
  induction l1 with
  | nil => simp at h
  | cons a l1 ih =>
    by_cases hpa : p a = true
    · rw [List.find?_cons_of_pos _ hpa] at h
      rw [List.cons_append, List.find?_cons_of_pos _ hpa]
      exact h
    · rw [List.find?_cons_of_neg _ (by simpa using hpa)] at h
      rw [List.cons_append, List.find?_cons_of_neg _ (by simpa using hpa)]
      exact ih h

/-- `map` distributes over the blocks of a `flatMap`. -/
theorem map_flatMap_blocks {α β γ : Type} (l : List α) (f : α → List β)
    (g : β → γ) : (l.flatMap f).map g = l.flatMap fun a => (f a).map g := by
  induction l with
  | nil => rfl
  | cons a l ih => simp [List.flatMap_cons, ih]

/-- `filterMap` distributes over the blocks of a `flatMap`. -/
theorem filterMap_flatMap_blocks {α β γ : Type} (l : List α)
    (f : α → List β) (g : β → Option γ) :
    (l.flatMap f).filterMap g = l.flatMap fun a => (f a).filterMap g := by
  induction l with
  | nil => rfl
  | cons a l ih => simp [List.flatMap_cons, List.filterMap_append, ih]

/-- With duplicate-free grouping keys, the first row found with a member
row's key is that row itself. -/
theorem find?_projKey (ids : List String) (r : Row) (t : List Row)
    (hkeys : (t.map fun x => projKey ids x).Nodup) (hr : r ∈ t) :
    t.find? (fun x => projKey ids x == projKey ids r) = some r := by
  induction t with
  | nil => simp at hr
  | cons r1 t ih =>
    simp only [List.map_cons, List.nodup_cons] at hkeys
    by_cases he : projKey ids r1 = projKey ids r
    · rw [List.find?_cons_of_pos _ (by simpa using he)]
      rcases List.mem_cons.1 hr with rfl | hr2
      · rfl
      · exact absurd (he ▸ List.mem_map.2 ⟨r, hr2, rfl⟩) hkeys.1
    · rw [List.find?_cons_of_neg _ (by simpa using he)]
      refine ih hkeys.2 ?_
      rcases List.mem_cons.1 hr with rfl | hr2
      · exact absurd rfl he
      · exact hr2

/-- Pointwise permutation of a mapped list against the original. -/
theorem forall₂_map_perm (f : Row → Row) (t : List Row)
    (h : ∀ r ∈ t, List.Perm (f r) r) :
    List.Forall₂ (fun a b => List.Perm a b) (t.map f) t := by
  induction t with
  | nil => exact List.Forall₂.nil
  | cons r t ih =>
    exact List.Forall₂.cons (h r (List.mem_cons_self r t))
      (ih fun x hx => h x (List.mem_cons_of_mem r hx))

/-- C4 (amended): melt followed by pivot on the same identifier columns
is a round trip up to column order, provided the table is well formed
(uniform duplicate-free schema, the melted name/value column names are
fresh, at least one value column) and the identifier columns uniquely
identify the rows: each output row is a permutation of the corresponding
input row. -/
theorem melt_pivot_roundtrip
    (cols ids : List String) (varName valName : String) (t : List Row)
    (hschema : ∀ r ∈ t, r.map Prod.fst = cols)
    (hcols : cols.Nodup)
    (hids : ∀ c ∈ ids, c ∈ cols)
    (hidsN : ids.Nodup)
    (hvar : varName ∉ cols)
    (hval : valName ∉ cols)
    (hvv : varName ≠ valName)
    (hkeys : (t.map fun r => projKey ids r).Nodup)
    (hvc : cols.filter (fun c => !ids.contains c) ≠ []) :
    List.Forall₂ (fun r1 r2 => List.Perm r1 r2)
      (pivot ids varName valName (melt cols ids varName valName t)) t := by
  by_cases ht : t = []
  · subst ht
    have hm : melt cols ids varName valName [] = [] := by
      simp [melt]
    rw [hm]
    have hp : pivot ids varName valName [] = [] := by
      simp [pivot, firstUniq, firstUniqAux]
    rw [hp]
    exact List.Forall₂.nil
  have hvarIds : varName ∉ ids := fun h => hvar (hids _ h)
  have hvalIds : valName ∉ ids := fun h => hval (hids _ h)
  have hvcN : (cols.filter fun c => !ids.contains c).Nodup :=
    hcols.filter _
  -- the projection keys of the melted table: the input keys repeated
  -- once per value column
  have hMproj : (melt cols ids varName valName t).map
      (fun r => projKey ids r) =
      (cols.filter fun c => !ids.contains c).flatMap
        (fun _ => t.map fun r => projKey ids r) := by
    rw [melt, map_flatMap_blocks]
    refine congrArg _ (funext fun c => ?_)
    rw [List.map_map]
    exact map_congr_of_mem t _ _ fun r _ => projKey_meltRow ids varName valName c r
  -- hence the pivot keys are exactly the input keys, in input order
  have hkeysEq : firstUniq ((melt cols ids varName valName t).map
      fun r => projKey ids r) = t.map fun r => projKey ids r := by
    rw [hMproj]
    cases hv : (cols.filter fun c => !ids.contains c) with
    | nil => exact absurd hv hvc
    | cons c vrest =>
      rw [List.flatMap_cons]
      rw [firstUniq_append_subset _ _ (by
        intro x hx
        simp only [List.mem_flatMap] at hx
        exact hx.choose_spec.2)]
      exact firstUniq_eq_self _ hkeys
  -- the names column of the melted table: each value column's name,
  -- once per input row
  have hMnames : (melt cols ids varName valName t).filterMap
      (fun r => cellStr (getCell r varName)) =
      (cols.filter fun c => !ids.contains c).flatMap
        fun c => t.map fun _ => c := by
    rw [melt, filterMap_flatMap_blocks]
    refine congrArg _ (funext fun c => ?_)
    rw [List.filterMap_map]
    have hfun : (fun r => cellStr (getCell
        (meltRow ids varName valName c r) varName)) =
        some ∘ fun _ => c := by
      funext r
      rw [getCell_meltRow_var ids varName valName c r hvarIds]
      rfl
    rw [show ((fun r => cellStr (getCell r varName)) ∘
        meltRow ids varName valName c) = (fun r => cellStr (getCell
        (meltRow ids varName valName c r) varName)) from rfl, hfun,
      List.filterMap_eq_map]
  -- hence the pivot names are exactly the value columns, in order
  have hnamesEq : firstUniq ((melt cols ids varName valName t).filterMap
      fun r => cellStr (getCell r varName)) =
      cols.filter fun c => !ids.contains c := by
    rw [hMnames]
    exact firstUniq_flatMap_const t ht _ hvcN
  -- the first-match cell of pivot recovers the original cell
  have hmatch : ∀ r ∈ t, ∀ n ∈ cols.filter fun c => !ids.contains c,
      firstMatchCell (melt cols ids varName valName t) ids
        (projKey ids r) varName n valName = getCell r n := by
    intro r hr n hn
    have hnIds : n ∉ ids := by
      rw [List.mem_filter] at hn
      simpa using hn.2
    have hblock : ∀ c, c = n →
        (t.map (meltRow ids varName valName c)).find?
          (fun x => projKey ids x == projKey ids r &&
            getCell x varName == some (.str n)) =
          some (meltRow ids varName valName n r) := by
      rintro c rfl
      rw [List.find?_map]
      have hfun : ((fun x => projKey ids x == projKey ids r &&
          getCell x varName == some (.str c)) ∘
            meltRow ids varName valName c) =
          fun x => projKey ids x == projKey ids r := by
        funext x
        simp only [Function.comp]
        rw [projKey_meltRow, getCell_meltRow_var ids varName valName c x hvarIds]
        simp
      rw [hfun, find?_projKey ids r t hkeys hr]
      rfl
    have hskip : ∀ c, c ≠ n →
        (t.map (meltRow ids varName valName c)).find?
          (fun x => projKey ids x == projKey ids r &&
            getCell x varName == some (.str n)) = none := by
      intro c hc
      refine List.find?_eq_none.2 fun x hx => ?_
      simp only [List.mem_map] at hx
      obtain ⟨r', _, rfl⟩ := hx
      rw [getCell_meltRow_var ids varName valName c r' hvarIds]
      simp only [Bool.and_eq_true, beq_iff_eq, not_and]
      intro _
      exact fun e => hc (by injection (Option.some.inj e))
    rw [firstMatchCell, melt]
    have hfind : ∀ vcl : List String, n ∈ vcl →
        ((vcl.flatMap fun c => t.map (meltRow ids varName valName c)).find?
          fun x => projKey ids x == projKey ids r &&
            getCell x varName == some (.str n)) =
          some (meltRow ids varName valName n r) := by
      intro vcl hnv
      induction vcl with
      | nil => simp at hnv
      | cons c vcl ih =>
        rw [List.flatMap_cons]
        by_cases hc : c = n
        · exact find?_append_some _ _ _ _ (hblock c hc)
        · rw [find?_append_none _ _ _ (hskip c hc)]
          refine ih ?_
          rcases List.mem_cons.1 hnv with rfl | h2
          · exact absurd rfl hc
          · exact h2
    rw [hfind _ hn]
    exact getCell_meltRow_val ids varName valName n r hvalIds hvv
  -- assemble: each pivot output row is a permutation of its input row
  rw [pivot, hkeysEq, hnamesEq, List.map_map]
  refine forall₂_map_perm _ t fun r hr => ?_
  have hzip : ids.zip (projKey ids r) = idPart ids r :=
    zip_map_self ids fun c => getCell r c
  have hnames2 : ((cols.filter fun c => !ids.contains c).map fun n =>
      (n, firstMatchCell (melt cols ids varName valName t) ids
        (projKey ids r) varName n valName)) =
      (cols.filter fun c => !ids.contains c).map fun n =>
        (n, getCell r n) :=
    map_congr_of_mem _ _ _ fun n hn => by rw [hmatch r hr n hn]
  simp only [Function.comp]
  rw [hzip, hnames2]
  have hperm1 : List.Perm ids (cols.filter fun c => ids.contains c) := by
    refine (List.perm_ext_iff_of_nodup hidsN (hcols.filter _)).2 fun a => ?_
    simp only [List.mem_filter, List.elem_iff]
    exact ⟨fun h => ⟨hids a h, h⟩, fun h => h.2⟩
  have hperm2 : List.Perm
      (ids ++ (cols.filter fun c => !ids.contains c)) cols :=
    (hperm1.append (List.Perm.refl _)).trans
      (List.filter_append_perm (fun c => ids.contains c) cols)
  have hrow : r = cols.map fun c => (c, getCell r c) := by
    have := row_eq_map_getCell r (by rw [hschema r hr]; exact hcols)
    rw [hschema r hr] at this
    exact this
  have hout : idPart ids r ++ ((cols.filter fun c => !ids.contains c).map
      fun n => (n, getCell r n)) =
      (ids ++ (cols.filter fun c => !ids.contains c)).map
        fun c => (c, getCell r c) := by
    rw [List.map_append]
    rfl
  rw [hout]
  have hfinal := hperm2.map fun c => (c, getCell r c)
  rw [← hrow] at hfinal
  exact hfinal

/-- A two-row table whose identifier column does not identify its rows. -/
def dupKeyTable : List Row :=
  [[("id", some (.int 1)), ("v", some (.int 10))],
   [("id", some (.int 1)), ("v", some (.int 20))]]

/-- C4 (counterexample): melt-then-pivot is not a round trip for every
table: on a table whose identifier columns do not determine the row, the
pivot's "keep first" aggregation collapses the tied index-tuples, so the
output has fewer rows than the input and cannot equal it under any
column reordering. -/
theorem melt_pivot_not_roundtrip :
    (pivot ["id"] "variable" "value"
      (melt ["id", "v"] ["id"] "variable" "value" dupKeyTable)).length = 1 ∧
    dupKeyTable.length = 2 := by
  constructor
  · decide
  · rfl

/-- Witness for C4: the spec's own melt scenario (`id=[1,2]`,
`Jan=[10,20]`, `Feb=[30,40]`) round-trips: the pivot of the melt is
row-wise a permutation of the original table. -/
theorem melt_pivot_roundtrip_witness :
    List.Forall₂ (fun r1 r2 => List.Perm r1 r2)
      (pivot ["id"] "variable" "value"
        (melt ["id", "Jan", "Feb"] ["id"] "variable" "value"
          [[("id", some (.int 1)), ("Jan", some (.int 10)),
            ("Feb", some (.int 30))],
           [("id", some (.int 2)), ("Jan", some (.int 20)),
            ("Feb", some (.int 40))]]))
      [[("id", some (.int 1)), ("Jan", some (.int 10)),
        ("Feb", some (.int 30))],
       [("id", some (.int 2)), ("Jan", some (.int 20)),
        ("Feb", some (.int 40))]] :=
  melt_pivot_roundtrip ["id", "Jan", "Feb"] ["id"] "variable" "value" _
    (by decide) (by decide) (by decide) (by decide) (by decide) (by decide)
    (by decide) (by decide) (by decide)

end PreppinData

